import Mathlib

/-!
Verification of the password-generator core of this repository.

The definitions below are a shallow embedding of the functions in
src/script.js: the character-class table CHAR, the ambiguous-character
filter, buildCharPool, secureRandomInt (rejection sampling over a uniform
32-bit source, with a Math.random fallback when the crypto source is
unavailable), generatePlain, the length clamp of generateHandler,
estimateEntropyBits and strengthFromEntropy.

Randomness is made explicit: the stream of 32-bit draws produced by
crypto.getRandomValues is a function from call index to value, the
Math.random results are a rational parameter, and the unbounded rejection
loop is given explicit fuel (running out of fuel is the artificial
Err.exhausted outcome, distinct from the errors the code itself raises).
-/

namespace PwGen

/-- CHAR.upper from script.js. -/
def CHAR.upper : String := "ABCDEFGHIJKLMNOPQRSTUVWXYZ"

/-- CHAR.lower from script.js. -/
def CHAR.lower : String := "abcdefghijklmnopqrstuvwxyz"

/-- CHAR.numbers from script.js. -/
def CHAR.numbers : String := "0123456789"

/-- CHAR.symbols from script.js (the braces are written as escapes). -/
def CHAR.symbols : String := "!@#$%^&*()_+[]\x7b\x7d|;:,.<>?"

/-- The character set of the regular expression AMBIGUOUS = /[O0Il]/g. -/
def ambiguousList : List Char := ['O', '0', 'I', 'l']

/-- pool.replace(AMBIGUOUS, ...): delete every ambiguous character. -/
def removeAmbiguous (s : String) : String :=
  String.mk (s.data.filter (fun c => !(ambiguousList.contains c)))

/-- The five checkbox states read by buildCharPool and generatePlain. -/
structure Options where
  upper : Bool
  lower : Bool
  numbers : Bool
  symbols : Bool
  exclude : Bool
deriving DecidableEq

/-- buildCharPool from script.js: append the enabled classes in declared
order (upper, lower, numbers, symbols), then optionally strip the
ambiguous characters. -/
def buildCharPool (o : Options) : String :=
  let pool := ""
  let pool := if o.upper then pool ++ CHAR.upper else pool
  let pool := if o.lower then pool ++ CHAR.lower else pool
  let pool := if o.numbers then pool ++ CHAR.numbers else pool
  let pool := if o.symbols then pool ++ CHAR.symbols else pool
  if o.exclude then removeAmbiguous pool else pool

/-- Error outcomes of the embedded core. invalidRange and emptyPool are
the two exceptions thrown in script.js; exhausted is the artificial
outcome of running the rejection loop out of fuel. -/
inductive Err where
  | invalidRange
  | emptyPool
  | exhausted
deriving DecidableEq

/-- Drop the first k values of a stream of 32-bit draws. -/
def shiftS (s : ℕ → ℕ) (k : ℕ) : ℕ → ℕ := fun i => s (i + k)

/-- Drop the first k values of a stream of Math.random results. -/
def shiftQ (f : ℕ → ℚ) (k : ℕ) : ℕ → ℚ := fun i => f (i + k)

/-- The constant maxUint = 0xFFFFFFFF of secureRandomInt. -/
def maxUint : ℕ := 0xFFFFFFFF

/-- The do/while loop of secureRandomInt: take successive draws until one
is below limit, then return that draw modulo range together with the
number of draws consumed. -/
def rejectLoop (stream : ℕ → ℕ) (limit range : ℤ) : ℕ → Except Err (ℤ × ℕ)
  | 0 => .error .exhausted
  | fuel + 1 =>
    if (stream 0 : ℤ) < limit then .ok ((stream 0 : ℤ) % range, 1)
    else
      match rejectLoop (shiftS stream 1) limit range fuel with
      | .ok (v, k) => .ok (v, k + 1)
      | .error e => .error e

/-- secureRandomInt from script.js, also reporting how many 32-bit draws
were consumed. When the crypto source is unavailable it returns
Math.floor(randFloat * range) at once (consuming no draw); otherwise it
validates the range and runs rejection sampling with
limit = Math.floor((maxUint + 1) / range) * range. -/
def secureRandomIntAux (crypto : Bool) (randFloat : ℚ) (stream : ℕ → ℕ)
    (fuel : ℕ) (range : ℤ) : Except Err (ℤ × ℕ) :=
  if !crypto then .ok (⌊randFloat * (range : ℚ)⌋, 0)
  else if range ≤ 0 then .error .invalidRange
  else
    let bucketSize := ((maxUint : ℤ) + 1) / range
    let limit := bucketSize * range
    rejectLoop stream limit range fuel

/-- secureRandomInt from script.js (result value only). -/
def secureRandomInt (crypto : Bool) (randFloat : ℚ) (stream : ℕ → ℕ)
    (fuel : ℕ) (range : ℤ) : Except Err ℤ :=
  (secureRandomIntAux crypto randFloat stream fuel range).map Prod.fst

/-- pool.charAt(i): the one-character string at index i, or the empty
string when i is out of bounds. -/
def charAt (s : String) (i : ℤ) : String :=
  if 0 ≤ i ∧ i < (s.length : ℤ) then String.singleton (s.data.getD i.toNat ' ')
  else ""

/-- out.join(...) with the empty separator: plain concatenation. -/
def joinAll : List String → String
  | [] => ""
  | a :: t => a ++ joinAll t

/-- The character-drawing loop of generatePlain: len independent calls of
secureRandomInt over the pool length, each result indexed into the pool
with charAt. The streams are advanced by the number of values each call
consumed. -/
def genChars (crypto : Bool) (pool : String) (fuel : ℕ) :
    ℕ → (ℕ → ℚ) → (ℕ → ℕ) → Except Err (List String)
  | 0, _, _ => .ok []
  | len + 1, floats, stream =>
    match secureRandomIntAux crypto (floats 0) stream fuel (pool.length : ℤ) with
    | .error e => .error e
    | .ok (idx, used) =>
      match genChars crypto pool fuel len (shiftQ floats 1) (shiftS stream used) with
      | .error e => .error e
      | .ok rest => .ok (charAt pool idx :: rest)

/-- generatePlain from script.js: build the pool, fail with emptyPool when
no class is selected, otherwise draw len characters and concatenate. -/
def generatePlain (crypto : Bool) (floats : ℕ → ℚ) (stream : ℕ → ℕ)
    (fuel : ℕ) (o : Options) (len : ℕ) : Except Err String :=
  let pool := buildCharPool o
  if pool = "" then .error .emptyPool
  else (genChars crypto pool fuel len floats stream).map joinAll

/-- The length clamp of generateHandler:
Math.max(6, Math.min(64, requested)). -/
def clampLength (n : ℤ) : ℤ := max 6 (min 64 n)

/-- generateHandler from script.js, restricted to its generation core:
clamp the requested length and call generatePlain. -/
def generateHandler (crypto : Bool) (floats : ℕ → ℚ) (stream : ℕ → ℕ)
    (fuel : ℕ) (o : Options) (n : ℤ) : Except Err String :=
  generatePlain crypto floats stream fuel o (clampLength n).toNat

/-- new Set(s).size: the number of distinct characters of s. -/
def distinctCount (s : String) : ℕ := s.data.dedup.length

/-- estimateEntropyBits from script.js: length times log2 of the distinct
pool size, and 0 for an empty pool. -/
noncomputable def estimateEntropyBits (o : Options) (password : String) : ℝ :=
  let poolSize := distinctCount (buildCharPool o)
  if poolSize = 0 then 0
  else (password.length : ℝ) * Real.logb 2 (poolSize : ℝ)

/-- The record returned by strengthFromEntropy. -/
structure StrengthInfo where
  label : String
  color : String
  pct : ℕ
deriving DecidableEq

/-- strengthFromEntropy from script.js: fixed ascending thresholds. -/
noncomputable def strengthFromEntropy (bits : ℝ) : StrengthInfo :=
  if bits < 28 then ⟨"Very weak", "#ff6b6b", 20⟩
  else if bits < 40 then ⟨"Weak", "#ff8a4a", 40⟩
  else if bits < 60 then ⟨"Moderate", "#ffd54d", 60⟩
  else if bits < 80 then ⟨"Strong", "#8be58b", 80⟩
  else ⟨"Very strong", "#2bd39b", 100⟩

/-- Modelled from the spec: the pool as the spec describes it, the
order-stable concatenation of the enabled classes in the declared order
upper, lower, numbers, symbols. Used to compare buildCharPool against
the specified shape. -/
def poolConcatSpec (u l n s : Bool) : String :=
  (if u then CHAR.upper else "") ++ (if l then CHAR.lower else "") ++
    (if n then CHAR.numbers else "") ++ (if s then CHAR.symbols else "")

deriving instance DecidableEq for Except

/-! Helper lemmas about strings and the pool. -/

theorem data_append (a b : String) : (a ++ b).data = a.data ++ b.data := rfl

theorem length_eq_data (s : String) : s.length = s.data.length := rfl

theorem length_pos_of_ne_empty {s : String} (h : s ≠ "") : 0 < s.length := by
  rcases s with ⟨l⟩
  cases l with
  | nil => exact absurd rfl h
  | cons a t => simp [length_eq_data]

theorem buildCharPool_eq_empty_iff (u l n s e : Bool) :
    buildCharPool ⟨u, l, n, s, e⟩ = "" ↔
      u = false ∧ l = false ∧ n = false ∧ s = false := by
  revert u l n s e
  decide

/-! Helper lemmas about the random selector and the generator. -/

theorem rejectLoop_error_eq (limit range : ℤ) :
    ∀ (fuel : ℕ) (stream : ℕ → ℕ) (e : Err),
      rejectLoop stream limit range fuel = .error e → e = .exhausted := by
  intro fuel
  induction fuel with
  | zero =>
    intro stream e h
    simp only [rejectLoop, Except.error.injEq] at h
    exact h.symm
  | succ m ih =>
    intro stream e h
    simp only [rejectLoop] at h
    by_cases hc : (stream 0 : ℤ) < limit
    · rw [if_pos hc] at h
      exact absurd h (by simp)
    · rw [if_neg hc] at h
      cases hrec : rejectLoop (shiftS stream 1) limit range m with
      | ok p => rw [hrec] at h; exact absurd h (by simp)
      | error e2 =>
        rw [hrec] at h
        simp only [Except.error.injEq] at h
        rw [← h]
        exact ih _ _ hrec

theorem rejectLoop_ok_bounds (limit range : ℤ) (hr : 0 < range) :
    ∀ (fuel : ℕ) (stream : ℕ → ℕ) (v : ℤ) (k : ℕ),
      rejectLoop stream limit range fuel = .ok (v, k) → 0 ≤ v ∧ v < range := by
  intro fuel
  induction fuel with
  | zero => intro stream v k h; exact absurd h (by simp [rejectLoop])
  | succ m ih =>
    intro stream v k h
    simp only [rejectLoop] at h
    by_cases hc : (stream 0 : ℤ) < limit
    · rw [if_pos hc] at h
      simp only [Except.ok.injEq, Prod.mk.injEq] at h
      rw [← h.1]
      exact ⟨Int.emod_nonneg _ (ne_of_gt hr), Int.emod_lt_of_pos _ hr⟩
    · rw [if_neg hc] at h
      cases hrec : rejectLoop (shiftS stream 1) limit range m with
      | error e2 => rw [hrec] at h; exact absurd h (by simp)
      | ok p =>
        obtain ⟨v2, k2⟩ := p
        rw [hrec] at h
        simp only [Except.ok.injEq, Prod.mk.injEq] at h
        rw [← h.1]
        exact (ih _ _ _ hrec)

theorem aux_ok_bounds (randFloat : ℚ) (stream : ℕ → ℕ) (fuel : ℕ)
    (range : ℤ) (hr : 0 < range) (v : ℤ) (k : ℕ) :
    secureRandomIntAux true randFloat stream fuel range = .ok (v, k) →
      0 ≤ v ∧ v < range := by
  intro h
  simp only [secureRandomIntAux, Bool.not_true, Bool.false_eq_true, if_false,
    if_neg (not_le.mpr hr)] at h
  exact rejectLoop_ok_bounds _ _ hr _ _ _ _ h

theorem aux_error_eq (crypto : Bool) (randFloat : ℚ) (stream : ℕ → ℕ)
    (fuel : ℕ) (range : ℤ) (e : Err) :
    secureRandomIntAux crypto randFloat stream fuel range = .error e →
      e = .invalidRange ∨ e = .exhausted := by
  intro h
  cases crypto with
  | false => exact absurd h (by simp [secureRandomIntAux])
  | true =>
    simp only [secureRandomIntAux, Bool.not_true, Bool.false_eq_true, if_false] at h
    by_cases hr : range ≤ 0
    · rw [if_pos hr] at h
      simp only [Except.error.injEq] at h
      exact Or.inl h.symm
    · rw [if_neg hr] at h
      exact Or.inr (rejectLoop_error_eq _ _ _ _ _ h)

theorem genChars_ne_emptyPool (crypto : Bool) (pool : String) (fuel : ℕ) :
    ∀ (len : ℕ) (floats : ℕ → ℚ) (stream : ℕ → ℕ),
      genChars crypto pool fuel len floats stream ≠ .error .emptyPool := by
  intro len
  induction len with
  | zero => intro floats stream; simp [genChars]
  | succ m ih =>
    intro floats stream h
    simp only [genChars] at h
    cases haux : secureRandomIntAux crypto (floats 0) stream fuel (pool.length : ℤ) with
    | error e =>
      rw [haux] at h
      simp only [Except.error.injEq] at h
      rcases aux_error_eq _ _ _ _ _ _ haux with h2 | h2 <;> simp [h2] at h
    | ok p =>
      obtain ⟨idx, used⟩ := p
      rw [haux] at h
      dsimp only at h
      cases hrec : genChars crypto pool fuel m (shiftQ floats 1) (shiftS stream used) with
      | error e2 =>
        rw [hrec] at h
        simp only [Except.error.injEq] at h
        rw [h] at hrec
        exact ih _ _ hrec
      | ok rest => rw [hrec] at h; exact absurd h (by simp)

theorem generatePlain_emptyPool_iff (crypto : Bool) (floats : ℕ → ℚ)
    (stream : ℕ → ℕ) (fuel : ℕ) (o : Options) (len : ℕ) :
    generatePlain crypto floats stream fuel o len = .error .emptyPool ↔
      buildCharPool o = "" := by
  unfold generatePlain
  by_cases hp : buildCharPool o = ""
  · simp [hp]
  · rw [if_neg hp]
    simp only [hp, iff_false]
    intro h
    cases hg : genChars crypto (buildCharPool o) fuel len floats stream with
    | error e =>
      rw [hg] at h
      simp only [Except.map, Except.error.injEq] at h
      rw [h] at hg
      exact genChars_ne_emptyPool _ _ _ _ _ _ hg
    | ok parts => rw [hg] at h; exact absurd h (by simp [Except.map])

/-- C2: generation fails with the EmptyPool error exactly when all four
character classes are disabled; with any class enabled the pool stays
non-empty (even under the ambiguous filter) and generatePlain does not
fail with emptyPool. -/
theorem emptyPool_iff_no_class (crypto : Bool) (floats : ℕ → ℚ)
    (stream : ℕ → ℕ) (fuel len : ℕ) (u l n s e : Bool) :
    (buildCharPool ⟨u, l, n, s, e⟩ = "" ↔
      u = false ∧ l = false ∧ n = false ∧ s = false) ∧
    (generatePlain crypto floats stream fuel ⟨u, l, n, s, e⟩ len =
        .error .emptyPool ↔
      u = false ∧ l = false ∧ n = false ∧ s = false) :=
  ⟨buildCharPool_eq_empty_iff u l n s e,
    (generatePlain_emptyPool_iff crypto floats stream fuel _ len).trans
      (buildCharPool_eq_empty_iff u l n s e)⟩

/-- C6: the exclude-ambiguous flag yields exactly the unfiltered pool with
the characters O, 0, I, l removed, and never enlarges the pool. -/
theorem excludeAmbiguous_removes_exactly (u l n s : Bool) :
    buildCharPool ⟨u, l, n, s, true⟩ =
      removeAmbiguous (buildCharPool ⟨u, l, n, s, false⟩) ∧
    (∀ c : Char, c ∈ (buildCharPool ⟨u, l, n, s, true⟩).data ↔
      c ∈ (buildCharPool ⟨u, l, n, s, false⟩).data ∧ c ∉ ambiguousList) ∧
    (buildCharPool ⟨u, l, n, s, true⟩).length ≤
      (buildCharPool ⟨u, l, n, s, false⟩).length := by
  have h1 : buildCharPool ⟨u, l, n, s, true⟩ =
      removeAmbiguous (buildCharPool ⟨u, l, n, s, false⟩) := rfl
  refine ⟨h1, fun c => ?_, ?_⟩
  · rw [h1]
    simp [removeAmbiguous, List.mem_filter]
  · rw [h1]
    exact List.length_filter_le _ _

/-- C9: buildCharPool is a deterministic function of the options, and its
value is the concatenation of the enabled classes in the declared order
upper, lower, numbers, symbols, with the ambiguous filter applied last. -/
theorem buildCharPool_deterministic_ordered :
    ∀ u l n s e : Bool,
      buildCharPool ⟨u, l, n, s, e⟩ = buildCharPool ⟨u, l, n, s, e⟩ ∧
      buildCharPool ⟨u, l, n, s, e⟩ =
        (if e then removeAmbiguous (poolConcatSpec u l n s)
          else poolConcatSpec u l n s) := by
  decide

/-! Helper lemmas for the uniformity count of the rejection sampler. -/

theorem filter_mod_card (b r v : ℕ) (hv : v < r) :
    ((Finset.range (b * r)).filter (fun x => x % r = v)).card = b := by
  have hr : 0 < r := lt_of_le_of_lt (Nat.zero_le v) hv
  have hinj : Function.Injective fun q => q * r + v := by
    intro a b2 hab
    simp only at hab
    have h2 : a * r = b2 * r := by omega
    exact Nat.eq_of_mul_eq_mul_right hr h2
  have himg : (Finset.range (b * r)).filter (fun x => x % r = v) =
      (Finset.range b).image (fun q => q * r + v) := by
    ext x
    simp only [Finset.mem_filter, Finset.mem_range, Finset.mem_image]
    constructor
    · rintro ⟨hx, hmod⟩
      refine ⟨x / r, (Nat.div_lt_iff_lt_mul hr).mpr hx, ?_⟩
      rw [← hmod]
      exact Nat.div_add_mod' x r
    · rintro ⟨q, hq, rfl⟩
      refine ⟨?_, ?_⟩
      · have h3 : (q + 1) * r ≤ b * r := Nat.mul_le_mul_right r (Nat.succ_le_of_lt hq)
        have h4 : (q + 1) * r = q * r + r := by ring
        omega
      · rw [Nat.add_comm, Nat.add_mul_mod_self_right]
        exact Nat.mod_eq_of_lt hv
  rw [himg, Finset.card_image_of_injective _ hinj, Finset.card_range]

theorem filter_limit_card (r v : ℕ) (hv : v < r) :
    ((Finset.range (2 ^ 32)).filter
      (fun x => x < 2 ^ 32 / r * r ∧ x % r = v)).card = 2 ^ 32 / r := by
  have hle : 2 ^ 32 / r * r ≤ 2 ^ 32 := Nat.div_mul_le_self _ _
  have hsub : (Finset.range (2 ^ 32)).filter
      (fun x => x < 2 ^ 32 / r * r ∧ x % r = v) =
      (Finset.range (2 ^ 32 / r * r)).filter (fun x => x % r = v) := by
    ext x
    simp only [Finset.mem_filter, Finset.mem_range]
    constructor
    · rintro ⟨hx, hlim, hmod⟩
      exact ⟨hlim, hmod⟩
    · rintro ⟨hlim, hmod⟩
      exact ⟨lt_of_lt_of_le hlim hle, hlim, hmod⟩
  rw [hsub, filter_mod_card _ _ _ hv]

theorem secureRandomInt_true_pos (randFloat : ℚ) (stream : ℕ → ℕ) (fuel : ℕ)
    (range : ℤ) (hr : 0 < range) :
    secureRandomInt true randFloat stream fuel range =
      (rejectLoop stream (((maxUint : ℤ) + 1) / range * range) range fuel).map
        Prod.fst := by
  unfold secureRandomInt secureRandomIntAux
  rw [if_neg (by simp), if_neg (not_le.mpr hr)]

/-- C1: for positive range (crypto available), secureRandomInt returns a
value in the interval from 0 to range, by rejection sampling: the limit is
floor((maxUint + 1) / range) * range with maxUint + 1 = 2 to the 32, a
draw below the limit is returned modulo range, a draw at or above it is
discarded and the next draw is taken; each residue below range has exactly
floor(2 to the 32 / range) accepted preimages among the 2 to the 32
possible draws, so the accepted distribution is exactly uniform. -/
theorem secureRandomInt_rejection_uniform (range : ℤ) (hr : 0 < range)
    (randFloat : ℚ) (stream : ℕ → ℕ) :
    ((maxUint : ℤ) + 1 = 2 ^ 32) ∧
    (∀ (fuel : ℕ) (v : ℤ),
      secureRandomInt true randFloat stream fuel range = .ok v →
        0 ≤ v ∧ v < range) ∧
    (∀ fuel : ℕ, (stream 0 : ℤ) < ((maxUint : ℤ) + 1) / range * range →
      secureRandomInt true randFloat stream (fuel + 1) range =
        .ok ((stream 0 : ℤ) % range)) ∧
    (∀ fuel : ℕ, ¬ (stream 0 : ℤ) < ((maxUint : ℤ) + 1) / range * range →
      secureRandomInt true randFloat stream (fuel + 1) range =
        secureRandomInt true randFloat (shiftS stream 1) fuel range) ∧
    (∀ v : ℕ, v < range.toNat →
      ((Finset.range (2 ^ 32)).filter
        (fun x => x < 2 ^ 32 / range.toNat * range.toNat ∧
          x % range.toNat = v)).card = 2 ^ 32 / range.toNat) := by
  refine ⟨by norm_num [maxUint], ?_, ?_, ?_, ?_⟩
  · intro fuel v h
    rw [secureRandomInt_true_pos _ _ _ _ hr] at h
    cases hrl : rejectLoop stream (((maxUint : ℤ) + 1) / range * range) range fuel with
    | error e => rw [hrl] at h; exact absurd h (by simp [Except.map])
    | ok p =>
      obtain ⟨v2, k⟩ := p
      rw [hrl] at h
      simp only [Except.map, Except.ok.injEq] at h
      rw [← h]
      exact rejectLoop_ok_bounds _ _ hr _ _ _ _ hrl
  · intro fuel hacc
    rw [secureRandomInt_true_pos _ _ _ _ hr]
    simp only [rejectLoop, if_pos hacc, Except.map]
  · intro fuel hacc
    rw [secureRandomInt_true_pos _ _ _ _ hr, secureRandomInt_true_pos _ _ _ _ hr]
    simp only [rejectLoop, if_neg hacc]
    cases rejectLoop (shiftS stream 1)
        (((maxUint : ℤ) + 1) / range * range) range fuel with
    | error e => rfl
    | ok p =>
      obtain ⟨v2, k⟩ := p
      rfl
  · intro v hv
    exact filter_limit_card range.toNat v hv

/-- Witness for C1: with range 2 and a stream whose first draw is 0, the
draw is accepted and the call returns that draw modulo 2. -/
theorem secureRandomInt_rejection_uniform_witness :
    secureRandomInt true 0 (fun _ => 0) (0 + 1) 2 =
      .ok ((((fun _ => 0) 0 : ℕ) : ℤ) % 2) :=
  (secureRandomInt_rejection_uniform 2 (by norm_num) 0 (fun _ => 0)).2.2.1 0
    (by norm_num [maxUint])

/-- C3 counterexample: the claim says secureRandomInt fails with
InvalidRange for range 0 regardless of crypto availability, but with the
crypto source unavailable the code takes the Math.random fallback before
validating and returns 0 for range 0 instead of failing. -/
theorem secureRandomInt_fallback_skips_validation :
    secureRandomInt false 0 (fun _ => 0) 1 0 = Except.ok 0 ∧
    secureRandomInt false 0 (fun _ => 0) 1 0 ≠ Except.error Err.invalidRange := by
  constructor
  · simp [secureRandomInt, secureRandomIntAux, Except.map]
  · simp [secureRandomInt, secureRandomIntAux, Except.map]

/-- C3 amended: for range at most 0, secureRandomInt fails with the
InvalidRange error whenever the crypto source is available; when it is
unavailable the validation is skipped and the fallback returns
floor(randFloat * range). -/
theorem secureRandomInt_invalidRange (range : ℤ) (h : range ≤ 0)
    (randFloat : ℚ) (stream : ℕ → ℕ) (fuel : ℕ) :
    secureRandomInt true randFloat stream fuel range =
      .error .invalidRange ∧
    ∀ q : ℚ, secureRandomInt false q stream fuel range =
      .ok ⌊q * (range : ℚ)⌋ := by
  constructor
  · simp [secureRandomInt, secureRandomIntAux, if_pos h, Except.map]
  · intro q
    simp [secureRandomInt, secureRandomIntAux, Except.map]

/-- Witness for the amended C3 at range 0 with the crypto source
available. -/
theorem secureRandomInt_invalidRange_witness :
    secureRandomInt true 0 (fun _ => 0) 1 0 = Except.error Err.invalidRange :=
  (secureRandomInt_invalidRange 0 (by norm_num) 0 (fun _ => 0) 1).1

/-! Helper lemmas for generatePlain. -/


theorem genChars_ok_spec (pool : String) (fuel : ℕ) (hp : 0 < pool.length) :
    ∀ (len : ℕ) (floats : ℕ → ℚ) (stream : ℕ → ℕ) (parts : List String),
      genChars true pool fuel len floats stream = .ok parts →
      (joinAll parts).length = len ∧
        ∀ c ∈ (joinAll parts).data, c ∈ pool.data := by
  intro len
  induction len with
  | zero =>
    intro floats stream parts h
    simp only [genChars, Except.ok.injEq] at h
    rw [← h]
    exact ⟨rfl, fun c hc => absurd hc (by simp [joinAll])⟩
  | succ m ih =>
    intro floats stream parts h
    simp only [genChars] at h
    cases haux : secureRandomIntAux true (floats 0) stream fuel (pool.length : ℤ) with
    | error e => rw [haux] at h; exact absurd h (by simp)
    | ok p =>
      obtain ⟨idx, used⟩ := p
      rw [haux] at h
      dsimp only at h
      cases hrec : genChars true pool fuel m (shiftQ floats 1) (shiftS stream used) with
      | error e2 => rw [hrec] at h; exact absurd h (by simp)
      | ok rest =>
        rw [hrec] at h
        simp only [Except.ok.injEq] at h
        rw [← h]
        have hpz : (0 : ℤ) < (pool.length : ℤ) := by exact_mod_cast hp
        have hb := aux_ok_bounds _ _ _ _ hpz _ _ haux
        have hchar : charAt pool idx =
            String.singleton (pool.data.getD idx.toNat ' ') :=
          if_pos ⟨hb.1, hb.2⟩
        have hrest := ih _ _ _ hrec
        have hJ : joinAll (charAt pool idx :: rest) =
            charAt pool idx ++ joinAll rest := rfl
        constructor
        · rw [hJ, String.length_append, hchar, hrest.1]
          have h1 : (String.singleton (pool.data.getD idx.toNat ' ')).length = 1 := rfl
          omega
        · intro c hc
          rw [hJ, data_append] at hc
          rcases List.mem_append.mp hc with h1 | h2
          · rw [hchar] at h1
            have hcd : c = pool.data.getD idx.toNat ' ' := by
              simpa [String.singleton] using h1
            rw [hcd]
            have hlt : idx.toNat < pool.data.length := by
              rw [← length_eq_data]
              omega
            rw [List.getD_eq_getElem _ _ hlt]
            exact List.getElem_mem _
          · exact hrest.2 c h2

theorem generatePlain_ok_spec (floats : ℕ → ℚ) (stream : ℕ → ℕ) (fuel : ℕ)
    (o : Options) (len : ℕ) (s : String) :
    generatePlain true floats stream fuel o len = .ok s →
    s.length = len ∧ ∀ c ∈ s.data, c ∈ (buildCharPool o).data := by
  intro h
  unfold generatePlain at h
  by_cases hp : buildCharPool o = ""
  · rw [if_pos hp] at h
    exact absurd h (by simp)
  · rw [if_neg hp] at h
    cases hg : genChars true (buildCharPool o) fuel len floats stream with
    | error e => rw [hg] at h; exact absurd h (by simp [Except.map])
    | ok parts =>
      rw [hg] at h
      simp only [Except.map, Except.ok.injEq] at h
      rw [← h]
      exact genChars_ok_spec _ _ (length_pos_of_ne_empty hp) _ _ _ _ hg

/-- C7: a successful generatePlain run over a non-empty pool returns a
string of exactly the requested length whose characters all belong to the
pool; each position is an independent draw indexed into the pool, with
repeats permitted (nothing beyond membership is constrained). -/
theorem generatePlain_draws_from_pool (floats : ℕ → ℚ) (stream : ℕ → ℕ)
    (fuel : ℕ) (o : Options) (len : ℕ) (s : String)
    (h : generatePlain true floats stream fuel o len = .ok s) :
    s.length = len ∧ ∀ c ∈ s.data, c ∈ (buildCharPool o).data :=
  generatePlain_ok_spec floats stream fuel o len s h

/-- Witness for C7: a concrete run with the digits-only pool and the
all-zero stream returns the two-character string 00 drawn from the pool. -/
theorem generatePlain_draws_from_pool_witness :
    ("00" : String).length = 2 ∧
      ∀ c ∈ ("00" : String).data,
        c ∈ (buildCharPool ⟨false, false, true, false, false⟩).data :=
  generatePlain_draws_from_pool (fun _ => 0) (fun _ => 0) 1
    ⟨false, false, true, false, false⟩ 2 "00" (by decide)

/-- C8: the requested length is clamped into the closed interval from 6 to
64 (below 6 becomes 6, above 64 becomes 64, in-range values pass through),
the handler never rejects a request because of an out-of-bound length but
simply generates with the clamped value, and a successfully generated
password has exactly the clamped length. -/
theorem generateHandler_clamps (floats : ℕ → ℚ) (stream : ℕ → ℕ) (fuel : ℕ)
    (o : Options) (n : ℤ) (s : String) :
    (n < 6 → clampLength n = 6) ∧
    (64 < n → clampLength n = 64) ∧
    (6 ≤ n → n ≤ 64 → clampLength n = n) ∧
    generateHandler true floats stream fuel o n =
      generatePlain true floats stream fuel o (clampLength n).toNat ∧
    (generateHandler true floats stream fuel o n = .ok s →
      s.length = (clampLength n).toNat) := by
  refine ⟨?_, ?_, ?_, rfl, ?_⟩
  · intro h
    simp only [clampLength]
    omega
  · intro h
    simp only [clampLength]
    omega
  · intro h1 h2
    simp only [clampLength]
    omega
  · intro h
    exact (generatePlain_ok_spec _ _ _ _ _ _ h).1

/-- Witness for C8: requesting length 3 is clamped to 6 and the generated
password has 6 characters. -/
theorem generateHandler_clamps_witness :
    clampLength 3 = 6 ∧
      ("000000" : String).length = (clampLength 3).toNat :=
  ⟨(generateHandler_clamps (fun _ => 0) (fun _ => 0) 1
      ⟨false, false, true, false, false⟩ 3 "000000").1 (by norm_num),
    (generateHandler_clamps (fun _ => 0) (fun _ => 0) 1
      ⟨false, false, true, false, false⟩ 3 "000000").2.2.2.2 (by decide)⟩

/-- C10: the pool never contains a repeated character, so the distinct
count used by the strength estimator equals the pool length. -/
theorem buildCharPool_no_repeats :
    ∀ u l n s e : Bool,
      (buildCharPool ⟨u, l, n, s, e⟩).data.Nodup ∧
      distinctCount (buildCharPool ⟨u, l, n, s, e⟩) =
        (buildCharPool ⟨u, l, n, s, e⟩).length := by
  decide

/-- C4: with a pool of positive distinct size P, the entropy estimate is
exactly the password length times log2 of P, and it depends only on the
length of the password (two passwords of equal length get the same
estimate), never on which characters the password contains. -/
theorem estimateEntropyBits_formula (o : Options) (pw pw2 : String)
    (hP : 0 < distinctCount (buildCharPool o))
    (hlen : pw2.length = pw.length) :
    estimateEntropyBits o pw =
      (pw.length : ℝ) * Real.logb 2 (distinctCount (buildCharPool o) : ℝ) ∧
    estimateEntropyBits o pw2 = estimateEntropyBits o pw := by
  have hne : distinctCount (buildCharPool o) ≠ 0 := Nat.pos_iff_ne_zero.mp hP
  constructor
  · simp only [estimateEntropyBits, if_neg hne]
  · simp only [estimateEntropyBits, if_neg hne, hlen]

/-- Witness for C4: the digits-only pool has 10 distinct symbols and two
three-character passwords get the same estimate. -/
theorem estimateEntropyBits_formula_witness :
    estimateEntropyBits ⟨false, false, true, false, false⟩ "abc" =
      (("abc" : String).length : ℝ) *
        Real.logb 2
          (distinctCount (buildCharPool ⟨false, false, true, false, false⟩) : ℝ) ∧
    estimateEntropyBits ⟨false, false, true, false, false⟩ "xyz" =
      estimateEntropyBits ⟨false, false, true, false, false⟩ "abc" :=
  estimateEntropyBits_formula ⟨false, false, true, false, false⟩ "abc" "xyz"
    (by decide) (by decide)

/-- C5: the strength category is given by fixed ascending thresholds on
the entropy bits (below 28 Very weak, then Weak, Moderate at 40, Strong at
60, Very strong from 80 up); for the lowercase-plus-numbers pool (36
symbols) and length 10 the estimate is 10 times log2 of 36, which lies
strictly between 51 and 52 bits, and the category is Moderate. -/
theorem strengthFromEntropy_thresholds (b : ℝ) :
    (b < 28 → (strengthFromEntropy b).label = "Very weak") ∧
    (28 ≤ b → b < 40 → (strengthFromEntropy b).label = "Weak") ∧
    (40 ≤ b → b < 60 → (strengthFromEntropy b).label = "Moderate") ∧
    (60 ≤ b → b < 80 → (strengthFromEntropy b).label = "Strong") ∧
    (80 ≤ b → (strengthFromEntropy b).label = "Very strong") ∧
    (distinctCount (buildCharPool ⟨false, true, true, false, false⟩) = 36 ∧
      estimateEntropyBits ⟨false, true, true, false, false⟩ "0123456789" =
        10 * Real.logb 2 36 ∧
      51 < 10 * Real.logb 2 36 ∧
      10 * Real.logb 2 36 < 52 ∧
      (strengthFromEntropy
        (estimateEntropyBits ⟨false, true, true, false, false⟩
          "0123456789")).label = "Moderate") := by
  have hone : Real.logb 2 2 = 1 := Real.logb_self_eq_one (by norm_num)
  have h51 : (51 : ℝ) < 10 * Real.logb 2 36 := by
    have hlt : Real.logb 2 ((2 : ℝ) ^ (51 : ℕ)) <
        Real.logb 2 ((36 : ℝ) ^ (10 : ℕ)) :=
      Real.logb_lt_logb (by norm_num) (by positivity) (by norm_num)
    rw [Real.logb_pow, Real.logb_pow, hone] at hlt
    push_cast at hlt
    linarith
  have h52 : 10 * Real.logb 2 36 < (52 : ℝ) := by
    have hlt : Real.logb 2 ((36 : ℝ) ^ (10 : ℕ)) <
        Real.logb 2 ((2 : ℝ) ^ (52 : ℕ)) :=
      Real.logb_lt_logb (by norm_num) (by positivity) (by norm_num)
    rw [Real.logb_pow, Real.logb_pow, hone] at hlt
    push_cast at hlt
    linarith
  have hd : distinctCount (buildCharPool ⟨false, true, true, false, false⟩)
      = 36 := by decide
  have hlen10 : ("0123456789" : String).length = 10 := rfl
  have hent : estimateEntropyBits ⟨false, true, true, false, false⟩
      "0123456789" = 10 * Real.logb 2 36 := by
    simp only [estimateEntropyBits, hd, hlen10]
    norm_num
  refine ⟨?_, ?_, ?_, ?_, ?_, hd, hent, h51, h52, ?_⟩
  · intro h
    unfold strengthFromEntropy
    rw [if_pos h]
  · intro h1 h2
    unfold strengthFromEntropy
    rw [if_neg (not_lt.mpr h1), if_pos h2]
  · intro h1 h2
    unfold strengthFromEntropy
    rw [if_neg (by linarith), if_neg (by linarith), if_pos h2]
  · intro h1 h2
    unfold strengthFromEntropy
    rw [if_neg (by linarith), if_neg (by linarith), if_neg (by linarith),
      if_pos h2]
  · intro h
    unfold strengthFromEntropy
    rw [if_neg (by linarith), if_neg (by linarith), if_neg (by linarith),
      if_neg (by linarith)]
  · rw [hent]
    unfold strengthFromEntropy
    rw [if_neg (by linarith), if_neg (by linarith), if_pos (by linarith)]

/-- Witness for C5: entropy 50 falls in the Moderate band. -/
theorem strengthFromEntropy_thresholds_witness :
    (strengthFromEntropy 50).label = "Moderate" :=
  (strengthFromEntropy_thresholds 50).2.2.1 (by norm_num) (by norm_num)

end PwGen
